import Mathlib

/-!
Verification development for the bias-aware knowledge retrieval engine of the
InitKit job-posting module (anti-bias RAG).  The retrieval engine itself ships
in this repository only as documentation and pseudocode
(`job_posting/USER_GUIDE_3_SCENARIOS.md`, the anti-bias README, and
`Documentation/job_posting_integration.md`); its Python sources
(`vector_store_simple.py`, `balanced_retrieval.py`, `knowledge_base.py`) are
not part of the repository tree.  The definitions below are therefore a
shallow embedding modelled from the design specification and the in-repo
pseudocode, and the theorems settle the specification's claims against that
model.  Scores are rationals; all definitions are executable.
-/

/-- Modelled from the spec: a Document record (data model section) — id,
raw content, lowercased `normalizedContent`, extracted `keywords`, and the
metadata fields `sourceFile`, `sourceType`, optional `platformTag`,
`chunkIndex`. -/
structure Document where
  id : Nat
  content : String
  normalizedContent : String
  keywords : List String
  sourceFile : String
  sourceType : String
  platformTag : Option String
  chunkIndex : Nat
deriving DecidableEq

/-- Modelled from the spec: a Query — raw text, whitespace-split lowercased
tokens, keywords (tokens minus stopwords), optional platform hint. -/
structure Query where
  text : String
  tokens : List String
  keywords : List String
  platformHint : Option String
deriving DecidableEq

/-- Modelled from the spec: tunable scoring weights exposed as configuration. -/
structure ScoreWeights where
  wDirect : ℚ
  wToken : ℚ
  wKeyword : ℚ
  wPlatform : ℚ
deriving DecidableEq

/-- The default weights documented in the guide: direct 0.8, per-token 0.3,
per-keyword 0.2, platform boost 0.5. -/
def defaultWeights : ScoreWeights :=
  { wDirect := 4/5, wToken := 3/10, wKeyword := 1/5, wPlatform := 1/2 }

/-- Whether the character list `s` is an initial segment of `h`. -/
def isStart : List Char → List Char → Bool
  | [], _ => true
  | _ :: _, [] => false
  | c :: cs, d :: ds => c == d && isStart cs ds

/-- Whether the character list `sub` occurs contiguously inside `hay`
(substring occurrence on the underlying character lists). -/
def occursIn (sub : List Char) : List Char → Bool
  | [] => isStart sub []
  | c :: cs => isStart sub (c :: cs) || occursIn sub cs

/-- Lowercasing of a string, character by character (the engine lowercases the
query text and stores `normalizedContent` lowercased). -/
def lowerStr (s : String) : String :=
  String.mk (s.data.map Char.toLower)

/-- Direct substring match: the full lowercased query text occurs verbatim in
the document's `normalizedContent`. -/
def directMatch (q : Query) (d : Document) : Bool :=
  occursIn (lowerStr q.text).data d.normalizedContent.data

/-- Number of query tokens present in the document's `normalizedContent`. -/
def tokenMatchCount (q : Query) (d : Document) : Nat :=
  (q.tokens.filter (fun t => occursIn t.data d.normalizedContent.data)).length

/-- Number of keywords in the intersection of the query's keywords and the
document's keywords. -/
def keywordMatchCount (q : Query) (d : Document) : Nat :=
  (q.keywords.filter (fun k => d.keywords.contains k)).length

/-- Platform boost condition: the query's platform hint matches the document's
platform tag. -/
def platformMatch (q : Query) (d : Document) : Bool :=
  match q.platformHint, d.platformTag with
  | some p, some t => p == t
  | _, _ => false

/-- The uncapped sum of the four scoring contributions (the guide's
`Total Score = Direct_Match + Word_Matches + Keyword_Matches + Platform_Boost`). -/
def totalScore (w : ScoreWeights) (q : Query) (d : Document) : ℚ :=
  (if directMatch q d then w.wDirect else 0)
    + w.wToken * tokenMatchCount q d
    + w.wKeyword * keywordMatchCount q d
    + (if platformMatch q d then w.wPlatform else 0)

/-- The relevance score of a (query, document) pair: the capped sum
`min(sum, 1.0)`. -/
def rawScore (w : ScoreWeights) (q : Query) (d : Document) : ℚ :=
  min (totalScore w q d) 1

/-- The bias-adjusted score: the guide's
`Final Score = min(Total_Score × Source_Weight, 1.0)`. -/
def adjustedScore (w : ScoreWeights) (sw : ℚ) (q : Query) (d : Document) : ℚ :=
  min (totalScore w q d * sw) 1

/-- A scored document: a document reference together with its score. -/
structure ScoredDoc where
  doc : Document
  score : ℚ
deriving DecidableEq

/-- The source file of a scored document. -/
def srcOf (x : ScoredDoc) : String :=
  x.doc.sourceFile

/-- The list of source files of a candidate set, with multiplicity. -/
def srcs (l : List ScoredDoc) : List String :=
  l.map srcOf

/-- Number of documents of a candidate set drawn from source `s`
(the per-source entry of the guide's `count_by_source`). -/
def countSrc (s : String) (l : List ScoredDoc) : Nat :=
  l.countP (fun x => srcOf x == s)

/-- Number of distinct sources represented in a candidate set. -/
def distinctSrcCount (l : List ScoredDoc) : Nat :=
  (srcs l).toFinset.card

/-- The largest number of documents any single source contributes
(`max(source_counts.values())` in the guide). -/
def maxSrcCount (l : List ScoredDoc) : Nat :=
  (srcs l).toFinset.sup (fun s => countSrc s l)

/-- The diversity score of the guide's `calculate_diversity_score`: zero when
at most one distinct source is present, otherwise
`min(1.0, total_sources / max_source_count)`.  (The spec extends the
pseudocode to the empty set, which also yields 0.) -/
def diversityScore (l : List ScoredDoc) : ℚ :=
  if distinctSrcCount l ≤ 1 then 0
  else min 1 (mkRat (distinctSrcCount l) (maxSrcCount l))

/-- Dominant source share: `maxSingleSourceCount / totalSelected` (zero for an
empty set). -/
def dominantSourceShare (l : List ScoredDoc) : ℚ :=
  if l.length = 0 then 0 else mkRat (maxSrcCount l) l.length

/-- Default diversity threshold below which rebalancing triggers (0.5). -/
def DIVERSITY_THRESHOLD : ℚ := mkRat 1 2

/-- Default dominance threshold above which rebalancing triggers (0.7). -/
def DOMINANCE_THRESHOLD : ℚ := mkRat 7 10

/-- Bias detection: diversity below threshold, or one source holding more than
the dominance-threshold share. -/
def biasDetected (l : List ScoredDoc) : Bool :=
  decide (diversityScore l < DIVERSITY_THRESHOLD)
    || decide (DOMINANCE_THRESHOLD < dominantSourceShare l)

/-- Per-source counts of a candidate set, as an association list. -/
def sourceDistribution (l : List ScoredDoc) : List (String × Nat) :=
  (srcs l).dedup.map (fun s => (s, countSrc s l))

/-- Bias metrics describing a result set. -/
structure BiasMetrics where
  sourceDistribution : List (String × Nat)
  diversityScore : ℚ
  dominantSourceShare : ℚ
  biasDetected : Bool
deriving DecidableEq

/-- The metrics recomputed on an output set (spec: the metrics always describe
the set actually returned). -/
def computeMetrics (l : List ScoredDoc) : BiasMetrics :=
  { sourceDistribution := sourceDistribution l
    diversityScore := diversityScore l
    dominantSourceShare := dominantSourceShare l
    biasDetected := biasDetected l }

/-- Modelled from the spec: source boost factor for underrepresented sources
(`SOURCE_BOOST_FACTOR = 1.5` in the documented anti-bias settings). -/
def SOURCE_BOOST_FACTOR : ℚ := 3/2

/-- Modelled from the spec: the weight of a source given the naive top-N
distribution — sources with a below-average share are boosted, the rest keep
weight 1.  (Share below average 1/G is expressed as count·G < total.) -/
def sourceWeight (naive : List ScoredDoc) (s : String) : ℚ :=
  if (countSrc s naive : ℚ) * (distinctSrcCount naive : ℚ) < (naive.length : ℚ)
  then SOURCE_BOOST_FACTOR else 1

/-- Modelled from the spec: recompute adjusted scores by multiplying each
candidate's score by its source's weight, capped at 1 (the guide's
`Final Score = min(Bias_Adjusted_Score, 1.0)`). -/
def applyBoost (naive pool : List ScoredDoc) : List ScoredDoc :=
  pool.map (fun x => ⟨x.doc, min (x.score * sourceWeight naive (srcOf x)) 1⟩)

/-- All candidates of `pool` drawn from source `s`, in pool order. -/
def groupFor (pool : List ScoredDoc) (s : String) : List ScoredDoc :=
  pool.filter (fun x => srcOf x == s)

/-- The distinct source keys of a candidate pool. -/
def sourceKeys (pool : List ScoredDoc) : List String :=
  (srcs pool).dedup

/-- Group the pool by source, each group truncated to at most `cap`
candidates (the per-source cap of the round-robin phase). -/
def groupsOf (pool : List ScoredDoc) (cap : Nat) : List (List ScoredDoc) :=
  (sourceKeys pool).map (fun s => (groupFor pool s).take cap)

/-- The top candidate of each source group, in stable key order. -/
def topsOf (pool : List ScoredDoc) : List ScoredDoc :=
  (sourceKeys pool).filterMap (fun s => (groupFor pool s).head?)

/-- One round-robin pass: take the next candidate of each group in turn while
the remaining budget `n` allows, returning the picks and the updated groups. -/
def oneRound : List (List ScoredDoc) → Nat → List ScoredDoc × List (List ScoredDoc)
  | [], _ => ([], [])
  | [] :: gs, n =>
    let p := oneRound gs n
    (p.1, [] :: p.2)
  | (d :: ds) :: gs, 0 => ([], (d :: ds) :: gs)
  | (d :: ds) :: gs, n + 1 =>
    let p := oneRound gs n
    (d :: p.1, ds :: p.2)

/-- Iterated round-robin selection: repeat passes until `n` items are chosen
or every group is exhausted (`fuel` bounds the number of passes). -/
def rrLoop : Nat → List (List ScoredDoc) → Nat → List ScoredDoc
  | 0, _, _ => []
  | fuel + 1, gs, n =>
    let p := oneRound gs n
    if p.1 = [] then [] else p.1 ++ rrLoop fuel p.2 (n - p.1.length)

/-- Modelled from the spec: the rebalancing path of the Balanced Selector —
boost underrepresented sources, round-robin across source groups never
exceeding `cap` per source, and if fewer than `minSrc` distinct sources came
out, fall back to the per-source top candidates (one top candidate from each
available source, at the expense of lowest-relevance chosen items). -/
def rebalance (pool : List ScoredDoc) (n cap minSrc : Nat) : List ScoredDoc :=
  let boosted := applyBoost (pool.take n) pool
  let sel := rrLoop n (groupsOf boosted cap) n
  if distinctSrcCount sel < minSrc then (topsOf boosted).take n else sel

/-- Modelled from the spec: the Balanced Selector — return the naive top-`n`
unchanged when the Bias Analyzer reports no bias on it, otherwise rebalance. -/
def balancedSelect (pool : List ScoredDoc) (n cap minSrc : Nat) : List ScoredDoc :=
  if biasDetected (pool.take n) then rebalance pool n cap minSrc else pool.take n

/-- Descending score order on scored documents (non-strict, so that the
insertion sort is stable and ties keep original ingestion order). -/
def scoreOrd (a b : ScoredDoc) : Prop :=
  b.score ≤ a.score

instance : DecidableRel scoreOrd :=
  fun a b => inferInstanceAs (Decidable (b.score ≤ a.score))

instance : IsTotal ScoredDoc scoreOrd :=
  ⟨fun a b => le_total b.score a.score⟩

instance : IsTrans ScoredDoc scoreOrd :=
  ⟨fun _ _ _ h1 h2 => le_trans h2 h1⟩

/-- Score every document of the snapshot against the query (no document is
excluded). -/
def scoreAll (q : Query) (snap : List Document) : List ScoredDoc :=
  snap.map (fun d => ⟨d, rawScore defaultWeights q d⟩)

/-- The full scored document set, sorted descending by score (stable, so ties
break by original ingestion order). -/
def rankAll (q : Query) (snap : List Document) : List ScoredDoc :=
  List.insertionSort scoreOrd (scoreAll q snap)

/-- Number of distinct sources present in a snapshot. -/
def snapSourceCount (snap : List Document) : Nat :=
  (snap.map (fun d => d.sourceFile)).toFinset.card

/-- The naive top-K of a query: the first `min K |snap|` entries of the full
descending ranking. -/
def naiveTopK (snap : List Document) (q : Query) (k : Nat) : List ScoredDoc :=
  (rankAll q snap).take (min k snap.length)

/-- A search response: the selected results together with the bias metrics of
that very set. -/
structure SearchResult where
  results : List ScoredDoc
  biasMetrics : BiasMetrics
deriving DecidableEq

/-- Modelled from the spec: the Retrieval Service search — score and rank the
whole snapshot, clamp `topK` to the corpus size and `minSources` to the number
of sources actually present (invalid parameters are clamped to valid ranges,
never rejected), oversample the top `2·topK` candidates, run the Balanced
Selector, and return the results with metrics recomputed on them. -/
def search (snap : List Document) (q : Query) (topK minSrc cap : Nat) : SearchResult :=
  let kEff := min topK snap.length
  let sEff := min (max 1 minSrc) (snapSourceCount snap)
  let capEff := max 1 cap
  let pool := (rankAll q snap).take (2 * kEff)
  let res := balancedSelect pool kEff capEff sEff
  { results := res, biasMetrics := computeMetrics res }

/-- A sample document for concrete evaluations. -/
def mkDoc (srcName contentStr : String) (tag : Option String) : Document :=
  { id := 0, content := contentStr, normalizedContent := contentStr
    keywords := [], sourceFile := srcName, sourceType := "general"
    platformTag := tag, chunkIndex := 0 }

/-- A sample scored document for concrete evaluations of the selector. -/
def mkSD (srcName : String) (sc : ℚ) : ScoredDoc :=
  ⟨mkDoc srcName "t" none, sc⟩

/-- Concrete pool for the per-source cap analysis: six candidates, four from
source a and two from source b, scores descending. -/
def capPool : List ScoredDoc :=
  [mkSD "a" 1, mkSD "a" (9/10), mkSD "a" (4/5), mkSD "a" (7/10),
   mkSD "b" (3/5), mkSD "b" (1/2)]

/-- Concrete snapshot for the minimum-sources analysis: two documents from
source a and two from source b matching the query, one from source c that does
not match. -/
def minSnap : List Document :=
  [mkDoc "a" "x" none, mkDoc "a" "x" none, mkDoc "b" "x" none,
   mkDoc "b" "x" none, mkDoc "c" "y" none]

/-- The query used by the concrete evaluations: text and single token x. -/
def qx : Query :=
  { text := "x", tokens := ["x"], keywords := [], platformHint := none }

/-- Concrete two-source snapshot for witnesses. -/
def twoSnap : List Document :=
  [mkDoc "a" "x" none, mkDoc "b" "x" none]

/-- Concrete single-source snapshot for witnesses. -/
def oneSnap : List Document :=
  [mkDoc "a" "x" none, mkDoc "a" "x" none]

/-- Concrete two-source candidate set for diversity witnesses. -/
def twoList : List ScoredDoc :=
  [mkSD "a" 1, mkSD "b" 1, mkSD "b" (1/2)]

/-- Concrete no-bias pool for the rebalance-iff-bias witness. -/
def evenPool : List ScoredDoc :=
  [mkSD "a" 1, mkSD "b" 1]

/-- A document whose match contributions reach the cap for query `qx`:
direct match 0.8 plus one token match 0.3. -/
def capDoc : Document :=
  mkDoc "a" "x" none

/-! ### Basic facts about the similarity scorer -/

theorem defaultWeights_pos : (0:ℚ) < defaultWeights.wDirect ∧ (0:ℚ) < defaultWeights.wToken
    ∧ (0:ℚ) < defaultWeights.wKeyword ∧ (0:ℚ) < defaultWeights.wPlatform := by
  refine ⟨?_, ?_, ?_, ?_⟩ <;> norm_num [defaultWeights]

theorem totalScore_nonneg (q : Query) (d : Document) :
    0 ≤ totalScore defaultWeights q d := by
  have h := defaultWeights_pos
  unfold totalScore
  have h1 : (0:ℚ) ≤ if directMatch q d then defaultWeights.wDirect else 0 := by
    split
    · exact le_of_lt h.1
    · exact le_refl 0
  have h4 : (0:ℚ) ≤ if platformMatch q d then defaultWeights.wPlatform else 0 := by
    split
    · exact le_of_lt h.2.2.2
    · exact le_refl 0
  have h2 : (0:ℚ) ≤ defaultWeights.wToken * tokenMatchCount q d :=
    mul_nonneg (le_of_lt h.2.1) (by positivity)
  have h3 : (0:ℚ) ≤ defaultWeights.wKeyword * keywordMatchCount q d :=
    mul_nonneg (le_of_lt h.2.2.1) (by positivity)
  linarith

theorem rawScore_nonneg (q : Query) (d : Document) :
    0 ≤ rawScore defaultWeights q d :=
  le_min (totalScore_nonneg q d) zero_le_one

theorem rawScore_le_one (q : Query) (d : Document) :
    rawScore defaultWeights q d ≤ 1 :=
  min_le_right _ _

theorem filterLen_cons_le {p : String → Bool} (t : String) (l : List String) :
    (l.filter p).length ≤ ((t :: l).filter p).length := by
  simp only [List.filter_cons]
  split
  · exact Nat.le_succ _
  · exact le_refl _

theorem totalScore_token_mono (q : Query) (d : Document) (t : String) :
    totalScore defaultWeights q d
      ≤ totalScore defaultWeights { q with tokens := t :: q.tokens } d := by
  have h := defaultWeights_pos
  unfold totalScore
  have hd : directMatch { q with tokens := t :: q.tokens } d = directMatch q d := rfl
  have hp : platformMatch { q with tokens := t :: q.tokens } d = platformMatch q d := rfl
  have hk : keywordMatchCount { q with tokens := t :: q.tokens } d = keywordMatchCount q d := rfl
  have ht : tokenMatchCount q d ≤ tokenMatchCount { q with tokens := t :: q.tokens } d :=
    filterLen_cons_le t q.tokens
  rw [hd, hp, hk]
  have : defaultWeights.wToken * (tokenMatchCount q d : ℚ)
      ≤ defaultWeights.wToken * (tokenMatchCount { q with tokens := t :: q.tokens } d : ℚ) := by
    apply mul_le_mul_of_nonneg_left _ (le_of_lt h.2.1)
    exact_mod_cast ht
  linarith

theorem totalScore_keyword_mono (q : Query) (d : Document) (k : String) :
    totalScore defaultWeights q d
      ≤ totalScore defaultWeights { q with keywords := k :: q.keywords } d := by
  have h := defaultWeights_pos
  unfold totalScore
  have hd : directMatch { q with keywords := k :: q.keywords } d = directMatch q d := rfl
  have hp : platformMatch { q with keywords := k :: q.keywords } d = platformMatch q d := rfl
  have ht : tokenMatchCount { q with keywords := k :: q.keywords } d = tokenMatchCount q d := rfl
  have hk : keywordMatchCount q d ≤ keywordMatchCount { q with keywords := k :: q.keywords } d :=
    filterLen_cons_le k q.keywords
  rw [hd, hp, ht]
  have : defaultWeights.wKeyword * (keywordMatchCount q d : ℚ)
      ≤ defaultWeights.wKeyword * (keywordMatchCount { q with keywords := k :: q.keywords } d : ℚ) := by
    apply mul_le_mul_of_nonneg_left _ (le_of_lt h.2.2.1)
    exact_mod_cast hk
  linarith

theorem totalScore_platform_mono (q : Query) (d : Document) :
    totalScore defaultWeights { q with platformHint := none } d
      ≤ totalScore defaultWeights { q with platformHint := d.platformTag } d := by
  have h := defaultWeights_pos
  unfold totalScore
  have hd : directMatch { q with platformHint := d.platformTag } d
      = directMatch { q with platformHint := none } d := rfl
  have ht : tokenMatchCount { q with platformHint := d.platformTag } d
      = tokenMatchCount { q with platformHint := none } d := rfl
  have hk : keywordMatchCount { q with platformHint := d.platformTag } d
      = keywordMatchCount { q with platformHint := none } d := rfl
  rw [hd, ht, hk]
  have hp0 : platformMatch { q with platformHint := none } d = false := by
    simp [platformMatch]
  rw [hp0]
  have : (0:ℚ) ≤ if platformMatch { q with platformHint := d.platformTag } d
      then defaultWeights.wPlatform else 0 := by
    split
    · exact le_of_lt h.2.2.2
    · exact le_refl 0
  simp only [Bool.false_eq_true, if_false]
  linarith

/-! ### Basic facts about source counting and the bias metrics -/

theorem countSrc_eq_count (s : String) (l : List ScoredDoc) :
    countSrc s l = (srcs l).count s := by
  induction l with
  | nil => rfl
  | cons x xs ih =>
    by_cases h : srcOf x = s <;>
      simp only [countSrc, srcs, List.countP_cons, List.map_cons, List.count_cons, h] at ih ⊢ <;>
      simp [h] <;> omega

theorem countSrc_append (s : String) (l1 l2 : List ScoredDoc) :
    countSrc s (l1 ++ l2) = countSrc s l1 + countSrc s l2 :=
  List.countP_append _ _ _

theorem countSrc_le_length (s : String) (l : List ScoredDoc) :
    countSrc s l ≤ l.length :=
  List.countP_le_length _

theorem countSrc_eq_zero (s : String) (l : List ScoredDoc)
    (h : ∀ x ∈ l, srcOf x ≠ s) : countSrc s l = 0 := by
  apply List.countP_eq_zero.2
  intro x hx
  simp [h x hx]

theorem countSrc_pos_of_mem {s : String} {l : List ScoredDoc} {x : ScoredDoc}
    (hx : x ∈ l) (hs : srcOf x = s) : 1 ≤ countSrc s l := by
  have : countSrc s l ≠ 0 := by
    intro h0
    have := List.countP_eq_zero.1 h0 x hx
    simp [hs] at this
  omega

theorem mem_srcs_iff {s : String} {l : List ScoredDoc} :
    s ∈ srcs l ↔ ∃ x ∈ l, srcOf x = s := by
  simp [srcs]

theorem countSrc_pos_iff {s : String} {l : List ScoredDoc} :
    1 ≤ countSrc s l ↔ s ∈ srcs l := by
  rw [countSrc_eq_count]
  constructor
  · intro h
    exact List.count_pos_iff.1 (by omega)
  · intro h
    exact List.count_pos_iff.2 h

theorem countSrc_le_max (s : String) (l : List ScoredDoc) :
    countSrc s l ≤ maxSrcCount l := by
  by_cases h : s ∈ srcs l
  · unfold maxSrcCount
    exact @Finset.le_sup ℕ String _ _ _ (fun t => countSrc t l) s (List.mem_toFinset.2 h)
  · have : countSrc s l = 0 := by
      apply countSrc_eq_zero
      intro x hx hs
      exact h (mem_srcs_iff.2 ⟨x, hx, hs⟩)
    omega

theorem maxSrcCount_attained {l : List ScoredDoc} (h : l ≠ []) :
    ∃ s ∈ (srcs l).toFinset, maxSrcCount l = countSrc s l := by
  have hne : (srcs l).toFinset.Nonempty := by
    match l, h with
    | x :: xs, _ => exact ⟨srcOf x, List.mem_toFinset.2 (by simp [srcs])⟩
  exact Finset.exists_mem_eq_sup _ hne _

theorem one_le_maxSrcCount {l : List ScoredDoc} (h : l ≠ []) :
    1 ≤ maxSrcCount l := by
  match l, h with
  | x :: xs, _ =>
    have h1 : 1 ≤ countSrc (srcOf x) (x :: xs) :=
      countSrc_pos_of_mem (List.mem_cons_self x xs) rfl
    exact le_trans h1 (countSrc_le_max _ _)

theorem maxSrcCount_le_length (l : List ScoredDoc) :
    maxSrcCount l ≤ l.length := by
  by_cases h : l = []
  · subst h; simp [maxSrcCount, srcs]
  · obtain ⟨s, _, hs⟩ := maxSrcCount_attained h
    rw [hs]
    exact countSrc_le_length s l

theorem distinctSrcCount_le_length (l : List ScoredDoc) :
    distinctSrcCount l ≤ l.length := by
  have h := List.toFinset_card_le (srcs l)
  have h2 : (srcs l).length = l.length := by simp [srcs]
  rw [h2] at h
  exact h

theorem sum_countSrc_eq_length (l : List ScoredDoc) {F : Finset String}
    (hF : (srcs l).toFinset ⊆ F) :
    (F.sum fun s => countSrc s l) = l.length := by
  have hmulti := Multiset.toFinset_sum_count_eq (srcs l : Multiset String)
  have hlist : ((srcs l).toFinset.sum fun s => (srcs l).count s) = (srcs l).length := by
    simpa using hmulti
  have hext : (F.sum fun s => (srcs l).count s)
      = ((srcs l).toFinset.sum fun s => (srcs l).count s) := by
    symm
    apply Finset.sum_subset hF
    intro s _ hs
    exact List.count_eq_zero.2 (fun hmem => hs (List.mem_toFinset.2 hmem))
  calc (F.sum fun s => countSrc s l) = F.sum fun s => (srcs l).count s := by
        apply Finset.sum_congr rfl
        intro s _
        exact countSrc_eq_count s l
    _ = (srcs l).length := by rw [hext, hlist]
    _ = l.length := by simp [srcs]

theorem mkRat_nat_eq_div (n d : Nat) : mkRat n d = (n : ℚ) / (d : ℚ) := by
  rw [Rat.mkRat_eq_div]
  norm_num

theorem diversityScore_nonneg (l : List ScoredDoc) : 0 ≤ diversityScore l := by
  unfold diversityScore
  split
  · exact le_refl 0
  · rw [mkRat_nat_eq_div]
    exact le_min zero_le_one (by positivity)

theorem diversityScore_le_one (l : List ScoredDoc) : diversityScore l ≤ 1 := by
  unfold diversityScore
  split
  · exact zero_le_one
  · exact min_le_left _ _

theorem diversityScore_of_le_one {l : List ScoredDoc} (h : distinctSrcCount l ≤ 1) :
    diversityScore l = 0 := by
  unfold diversityScore
  simp [h]

theorem diversityScore_of_two_le {l : List ScoredDoc} (h : 2 ≤ distinctSrcCount l) :
    diversityScore l
      = min 1 ((distinctSrcCount l : ℚ) / (maxSrcCount l : ℚ)) := by
  unfold diversityScore
  rw [if_neg (by omega), mkRat_nat_eq_div]

theorem distinctSrcCount_eq_zero {l : List ScoredDoc} (h : l = []) :
    distinctSrcCount l = 0 := by
  subst h
  rfl

theorem distinctSrcCount_pos {l : List ScoredDoc} (h : l ≠ []) :
    1 ≤ distinctSrcCount l := by
  match l, h with
  | x :: xs, _ =>
    have hmem : srcOf x ∈ (srcs (x :: xs)).toFinset := List.mem_toFinset.2 (by simp [srcs])
    have hpos := Finset.card_pos.2 ⟨srcOf x, hmem⟩
    unfold distinctSrcCount
    omega

theorem distinctSrcCount_le_of_subset {l1 l2 : List ScoredDoc}
    (h : ∀ x ∈ l1, x ∈ l2) : distinctSrcCount l1 ≤ distinctSrcCount l2 := by
  apply Finset.card_le_card
  intro s hs
  rw [List.mem_toFinset] at hs ⊢
  obtain ⟨x, hx, rfl⟩ := mem_srcs_iff.1 hs
  exact mem_srcs_iff.2 ⟨x, h x hx, rfl⟩

theorem distinctSrcCount_append_left (l1 l2 : List ScoredDoc) :
    distinctSrcCount l1 ≤ distinctSrcCount (l1 ++ l2) := by
  apply distinctSrcCount_le_of_subset
  intro x hx
  exact List.mem_append_left l2 hx

theorem diversityScore_mono {l1 l2 : List ScoredDoc}
    (hD : distinctSrcCount l1 ≤ distinctSrcCount l2)
    (hM : maxSrcCount l2 ≤ maxSrcCount l1)
    (hD1 : 2 ≤ distinctSrcCount l1) (hM2 : 1 ≤ maxSrcCount l2) :
    diversityScore l1 ≤ diversityScore l2 := by
  rw [diversityScore_of_two_le hD1, diversityScore_of_two_le (le_trans hD1 hD)]
  apply min_le_min (le_refl 1)
  have h1 : (0:ℚ) < maxSrcCount l2 := by exact_mod_cast hM2
  have h2 : (0:ℚ) < maxSrcCount l1 := by
    have : maxSrcCount l2 ≤ maxSrcCount l1 := hM
    have : (maxSrcCount l2 : ℚ) ≤ maxSrcCount l1 := by exact_mod_cast this
    linarith
  apply div_le_div₀ (by positivity) (by exact_mod_cast hD) h1 (by exact_mod_cast hM)

/-! ### Facts about a single round-robin pass -/

theorem oneRound_perm (gs : List (List ScoredDoc)) (n : Nat) :
    ((oneRound gs n).1 ++ (oneRound gs n).2.flatten).Perm gs.flatten := by
  induction gs generalizing n with
  | nil => simp [oneRound]
  | cons g gs ih =>
    cases g with
    | nil =>
      simp only [oneRound, List.flatten_cons, List.nil_append]
      exact ih n
    | cons d ds =>
      cases n with
      | zero => simp [oneRound]
      | succ n =>
        simp only [oneRound, List.flatten_cons, List.cons_append]
        refine List.Perm.cons d ?_
        rw [← List.append_assoc]
        refine ((List.perm_append_comm).append_right _).trans ?_
        rw [List.append_assoc]
        exact (ih n).append_left ds

theorem oneRound_count (gs : List (List ScoredDoc)) (n : Nat) (s : String) :
    countSrc s (oneRound gs n).1 + countSrc s (oneRound gs n).2.flatten
      = countSrc s gs.flatten := by
  have h := (oneRound_perm gs n).countP_eq (fun x => srcOf x == s)
  rw [← countSrc_append]
  exact h

theorem oneRound_fst_length_le (gs : List (List ScoredDoc)) (n : Nat) :
    (oneRound gs n).1.length ≤ n := by
  induction gs generalizing n with
  | nil => simp [oneRound]
  | cons g gs ih =>
    cases g with
    | nil =>
      simp only [oneRound]
      exact ih n
    | cons d ds =>
      cases n with
      | zero => simp [oneRound]
      | succ n =>
        simp only [oneRound, List.length_cons]
        have := ih n
        omega

theorem oneRound_fst_subset (gs : List (List ScoredDoc)) (n : Nat) :
    ∀ x ∈ (oneRound gs n).1, x ∈ gs.flatten := by
  intro x hx
  exact (oneRound_perm gs n).subset (List.mem_append_left _ hx)

theorem oneRound_snd_subset (gs : List (List ScoredDoc)) (n : Nat) :
    ∀ x ∈ (oneRound gs n).2.flatten, x ∈ gs.flatten := by
  intro x hx
  exact (oneRound_perm gs n).subset (List.mem_append_right _ hx)

/-- Groups whose members all share one source. -/
def PerSourceGroups (gs : List (List ScoredDoc)) : Prop :=
  ∀ g ∈ gs, ∀ x ∈ g, ∀ y ∈ g, srcOf x = srcOf y

/-- Pairwise source-disjoint groups. -/
def SepGroups (gs : List (List ScoredDoc)) : Prop :=
  List.Pairwise (fun g h => ∀ x ∈ g, ∀ y ∈ h, srcOf x ≠ srcOf y) gs

theorem oneRound_covers (gs : List (List ScoredDoc)) (n : Nat)
    (hps : PerSourceGroups gs) (hlt : (oneRound gs n).1.length < n) :
    ∀ x ∈ gs.flatten, srcOf x ∈ srcs (oneRound gs n).1 := by
  induction gs generalizing n with
  | nil => simp
  | cons g gs ih =>
    cases g with
    | nil =>
      simp only [oneRound] at hlt ⊢
      simp only [List.flatten_cons, List.nil_append]
      exact ih n (fun g hg => hps g (List.mem_cons_of_mem _ hg)) hlt
    | cons d ds =>
      cases n with
      | zero => simp [oneRound] at hlt
      | succ n =>
        simp only [oneRound, List.length_cons] at hlt ⊢
        intro x hx
        rw [List.flatten_cons, List.mem_append] at hx
        rcases hx with hx | hx
        · have hsx : srcOf x = srcOf d :=
            hps (d :: ds) (List.mem_cons_self _ _) x hx d (List.mem_cons_self _ _)
          rw [hsx]
          simp [srcs]
        · have hlt2 : (oneRound gs n).1.length < n := by omega
          have hres := ih n (fun g hg => hps g (List.mem_cons_of_mem _ hg)) hlt2 x hx
          simp only [srcs, List.map_cons, List.mem_cons]
          right
          exact hres

theorem oneRound_count_le_one (gs : List (List ScoredDoc)) (n : Nat) (s : String)
    (hsep : SepGroups gs) : countSrc s (oneRound gs n).1 ≤ 1 := by
  induction gs generalizing n with
  | nil => simp [oneRound, countSrc]
  | cons g gs ih =>
    cases g with
    | nil =>
      simp only [oneRound]
      exact ih n (List.Pairwise.of_cons hsep)
    | cons d ds =>
      cases n with
      | zero => simp [oneRound, countSrc]
      | succ n =>
        replace hsep := List.pairwise_cons.1 hsep
        have hone : (oneRound ((d :: ds) :: gs) (n+1)).1 = d :: (oneRound gs n).1 := by
          simp [oneRound]
        rw [hone, countSrc, List.countP_cons]
        by_cases hds : srcOf d = s
        · have hzero : countSrc s (oneRound gs n).1 = 0 := by
            apply countSrc_eq_zero
            intro y hy
            have hyj : y ∈ gs.flatten := oneRound_fst_subset gs n y hy
            rw [List.mem_flatten] at hyj
            obtain ⟨g2, hg2, hyg2⟩ := hyj
            have hne := hsep.1 g2 hg2 d (List.mem_cons_self _ _) y hyg2
            rw [hds] at hne
            exact fun hc => hne hc.symm
          rw [countSrc] at hzero
          rw [if_pos (by simp [hds])]
          omega
        · have hle := ih n hsep.2
          rw [countSrc] at hle
          rw [if_neg (by simpa using hds)]
          omega

theorem oneRound_srcs_nodup (gs : List (List ScoredDoc)) (n : Nat)
    (hsep : SepGroups gs) : (srcs (oneRound gs n).1).Nodup := by
  rw [List.nodup_iff_count_le_one]
  intro s
  rw [← countSrc_eq_count]
  exact oneRound_count_le_one gs n s hsep

theorem forall2_mem {R : List ScoredDoc → List ScoredDoc → Prop}
    {hs gs : List (List ScoredDoc)} (hf : List.Forall₂ R hs gs) :
    ∀ h ∈ hs, ∃ g ∈ gs, R h g := by
  induction hf with
  | nil => simp
  | cons hr _ ih =>
    intro h hm
    rcases List.mem_cons.1 hm with rfl | hm
    · exact ⟨_, List.mem_cons_self _ _, hr⟩
    · obtain ⟨g, hg, hRg⟩ := ih h hm
      exact ⟨g, List.mem_cons_of_mem _ hg, hRg⟩

theorem oneRound_snd_forall2 (gs : List (List ScoredDoc)) (n : Nat) :
    List.Forall₂ (fun h g => ∀ x ∈ h, x ∈ g) (oneRound gs n).2 gs := by
  induction gs generalizing n with
  | nil => simp [oneRound]
  | cons g gs ih =>
    cases g with
    | nil =>
      simp only [oneRound]
      exact List.Forall₂.cons (by simp) (ih n)
    | cons d ds =>
      cases n with
      | zero =>
        simp only [oneRound]
        exact List.forall₂_same.2 (fun g _ x hx => hx)
      | succ n =>
        simp only [oneRound]
        exact List.Forall₂.cons (fun x hx => List.mem_cons_of_mem d hx) (ih n)

theorem persource_of_forall2 {hs gs : List (List ScoredDoc)}
    (hf : List.Forall₂ (fun h g => ∀ x ∈ h, x ∈ g) hs gs)
    (hps : PerSourceGroups gs) : PerSourceGroups hs := by
  intro h hm x hx y hy
  obtain ⟨g, hg, hsub⟩ := forall2_mem hf h hm
  exact hps g hg x (hsub x hx) y (hsub y hy)

theorem sep_of_forall2 {hs gs : List (List ScoredDoc)}
    (hf : List.Forall₂ (fun h g => ∀ x ∈ h, x ∈ g) hs gs)
    (hsep : SepGroups gs) : SepGroups hs := by
  induction hf with
  | nil => exact List.Pairwise.nil
  | cons hr hf ih =>
    replace hsep := List.pairwise_cons.1 hsep
    refine List.pairwise_cons.2 ⟨?_, ih hsep.2⟩
    intro h2 hh2 x hx y hy
    obtain ⟨g2, hg2, hsub2⟩ := forall2_mem hf h2 hh2
    exact hsep.1 g2 hg2 x (hr x hx) y (hsub2 y hy)

theorem oneRound_snd_persource {gs : List (List ScoredDoc)} {n : Nat}
    (hps : PerSourceGroups gs) : PerSourceGroups (oneRound gs n).2 :=
  persource_of_forall2 (oneRound_snd_forall2 gs n) hps

theorem oneRound_snd_sep {gs : List (List ScoredDoc)} {n : Nat}
    (hsep : SepGroups gs) : SepGroups (oneRound gs n).2 :=
  sep_of_forall2 (oneRound_snd_forall2 gs n) hsep

/-! ### Facts about the iterated round-robin selection -/

theorem rrLoop_count_le (fuel : Nat) (gs : List (List ScoredDoc)) (n : Nat) (s : String) :
    countSrc s (rrLoop fuel gs n) ≤ countSrc s gs.flatten := by
  induction fuel generalizing gs n with
  | zero => simp [rrLoop, countSrc]
  | succ fuel ih =>
    simp only [rrLoop]
    split
    · simp [countSrc]
    · rw [countSrc_append]
      have h1 := ih (oneRound gs n).2 (n - (oneRound gs n).1.length)
      have h2 := oneRound_count gs n s
      omega

theorem rrLoop_length_le (fuel : Nat) (gs : List (List ScoredDoc)) (n : Nat) :
    (rrLoop fuel gs n).length ≤ n := by
  induction fuel generalizing gs n with
  | zero => simp [rrLoop]
  | succ fuel ih =>
    simp only [rrLoop]
    split
    · simp
    · rw [List.length_append]
      have h1 := ih (oneRound gs n).2 (n - (oneRound gs n).1.length)
      have h2 := oneRound_fst_length_le gs n
      omega

theorem rrLoop_subset (fuel : Nat) (gs : List (List ScoredDoc)) (n : Nat) :
    ∀ x ∈ rrLoop fuel gs n, x ∈ gs.flatten := by
  induction fuel generalizing gs n with
  | zero => simp [rrLoop]
  | succ fuel ih =>
    intro x hx
    simp only [rrLoop] at hx
    split at hx
    · simp at hx
    · rw [List.mem_append] at hx
      rcases hx with hx | hx
      · exact oneRound_fst_subset gs n x hx
      · exact oneRound_snd_subset gs n x (ih _ _ x hx)

theorem oneRound_zero_fst (gs : List (List ScoredDoc)) : (oneRound gs 0).1 = [] := by
  induction gs with
  | nil => simp [oneRound]
  | cons g gs ih =>
    cases g with
    | nil => simp only [oneRound]; exact ih
    | cons d ds => simp [oneRound]

theorem rrLoop_zero (fuel : Nat) (gs : List (List ScoredDoc)) : rrLoop fuel gs 0 = [] := by
  cases fuel with
  | zero => rfl
  | succ fuel =>
    simp only [rrLoop]
    rw [if_pos (oneRound_zero_fst gs)]

theorem rrLoop_fair (fuel : Nat) (gs : List (List ScoredDoc)) (n : Nat) (s t : String)
    (hps : PerSourceGroups gs) (hsep : SepGroups gs) :
    countSrc t (rrLoop fuel gs n) ≤ countSrc s (rrLoop fuel gs n) + 1
      ∨ countSrc s (rrLoop fuel gs n) = countSrc s gs.flatten := by
  induction fuel generalizing gs n with
  | zero =>
    left
    simp [rrLoop, countSrc]
  | succ fuel ih =>
    simp only [rrLoop]
    split
    · left; simp [countSrc]
    · rename_i hne
      rw [countSrc_append, countSrc_append]
      by_cases hrem : n - (oneRound gs n).1.length = 0
      · rw [hrem, rrLoop_zero]
        have h1 := oneRound_count_le_one gs n t hsep
        have hz1 : countSrc t ([] : List ScoredDoc) = 0 := rfl
        have hz2 : countSrc s ([] : List ScoredDoc) = 0 := rfl
        left
        omega
      · have hlen : (oneRound gs n).1.length < n := by
          have := oneRound_fst_length_le gs n
          omega
        by_cases hs0 : countSrc s gs.flatten = 0
        · right
          have hb := rrLoop_count_le (fuel + 1) gs n s
          simp only [rrLoop] at hb
          rw [if_neg hne, countSrc_append] at hb
          omega
        · have hs1 : 1 ≤ countSrc s gs.flatten := by omega
          have hsmem : s ∈ srcs gs.flatten := countSrc_pos_iff.1 hs1
          obtain ⟨x, hx, hxs⟩ := mem_srcs_iff.1 hsmem
          have hcov := oneRound_covers gs n hps hlen x hx
          rw [hxs] at hcov
          have hone : countSrc s (oneRound gs n).1 = 1 := by
            have hle := oneRound_count_le_one gs n s hsep
            have hge : 1 ≤ countSrc s (oneRound gs n).1 := by
              rw [countSrc_eq_count]
              exact List.count_pos_iff.2 hcov
            omega
          have htle : countSrc t (oneRound gs n).1 ≤ 1 :=
            oneRound_count_le_one gs n t hsep
          rcases ih (oneRound gs n).2 (n - (oneRound gs n).1.length)
              (oneRound_snd_persource hps) (oneRound_snd_sep hsep) with hl | hr
          · left
            omega
          · right
            have hcons := oneRound_count gs n s
            omega

theorem rrLoop_distinct (fuel : Nat) (gs : List (List ScoredDoc)) (n : Nat)
    (hps : PerSourceGroups gs) (hsep : SepGroups gs) (hfuel : n ≤ fuel) :
    min (distinctSrcCount gs.flatten) n ≤ distinctSrcCount (rrLoop fuel gs n) := by
  cases fuel with
  | zero =>
    have : n = 0 := by omega
    subst this
    simp
  | succ fuel =>
    simp only [rrLoop]
    split
    · rename_i hemp
      by_cases hn : n = 0
      · subst hn; simp
      · have hlen : (oneRound gs n).1.length < n := by
          rw [hemp]
          simp
          omega
        have hcov := oneRound_covers gs n hps hlen
        have : gs.flatten = [] := by
          cases hj : gs.flatten with
          | nil => rfl
          | cons y ys =>
            have := hcov y (by rw [hj]; exact List.mem_cons_self _ _)
            rw [hemp] at this
            simp [srcs] at this
        rw [this]
        simp [distinctSrcCount, srcs]
  -- the picked items of the first pass already witness the bound
    · rename_i hne
      have hnodup := oneRound_srcs_nodup gs n hsep
      by_cases hlen : (oneRound gs n).1.length < n
      · have hcov := oneRound_covers gs n hps hlen
        have hsub : (srcs gs.flatten).toFinset ⊆ (srcs (oneRound gs n).1).toFinset := by
          intro a ha
          rw [List.mem_toFinset] at ha ⊢
          obtain ⟨x, hx, rfl⟩ := mem_srcs_iff.1 ha
          exact hcov x hx
        have hcard := Finset.card_le_card hsub
        have happ := distinctSrcCount_append_left (oneRound gs n).1
            (rrLoop fuel (oneRound gs n).2 (n - (oneRound gs n).1.length))
        have hmin : min (distinctSrcCount gs.flatten) n ≤ distinctSrcCount gs.flatten :=
          min_le_left _ _
        unfold distinctSrcCount at happ ⊢
        omega
      · have hlen2 : (oneRound gs n).1.length = n := by
          have := oneRound_fst_length_le gs n
          omega
        have hdn : distinctSrcCount (oneRound gs n).1 = n := by
          unfold distinctSrcCount
          rw [List.toFinset_card_of_nodup hnodup]
          simp only [srcs, List.length_map]
          exact hlen2
        have happ := distinctSrcCount_append_left (oneRound gs n).1
            (rrLoop fuel (oneRound gs n).2 (n - (oneRound gs n).1.length))
        have hmin : min (distinctSrcCount gs.flatten) n ≤ n := min_le_right _ _
        omega

/-! ### Facts about grouping by source -/

theorem groupFor_src (pool : List ScoredDoc) (s : String) :
    ∀ x ∈ groupFor pool s, srcOf x = s := by
  intro x hx
  have := List.of_mem_filter hx
  simpa using this

theorem groupFor_subset (pool : List ScoredDoc) (s : String) :
    ∀ x ∈ groupFor pool s, x ∈ pool := by
  intro x hx
  exact List.mem_of_mem_filter hx

theorem groupFor_length (pool : List ScoredDoc) (s : String) :
    (groupFor pool s).length = countSrc s pool := by
  unfold groupFor countSrc
  exact (List.countP_eq_length_filter _ _).symm

theorem countSrc_of_all {s : String} {l : List ScoredDoc}
    (h : ∀ x ∈ l, srcOf x = s) : countSrc s l = l.length := by
  unfold countSrc
  rw [List.countP_eq_length]
  intro x hx
  simp [h x hx]

theorem sourceKeys_nodup (pool : List ScoredDoc) : (sourceKeys pool).Nodup :=
  List.nodup_dedup _

theorem mem_sourceKeys {pool : List ScoredDoc} {s : String} :
    s ∈ sourceKeys pool ↔ s ∈ srcs pool :=
  List.mem_dedup

theorem groupFor_ne_nil {pool : List ScoredDoc} {s : String} (h : s ∈ srcs pool) :
    groupFor pool s ≠ [] := by
  obtain ⟨x, hx, rfl⟩ := mem_srcs_iff.1 h
  intro hc
  have : x ∈ groupFor pool (srcOf x) := by
    unfold groupFor
    rw [List.mem_filter]
    exact ⟨hx, by simp⟩
  rw [hc] at this
  exact absurd this (List.not_mem_nil x)

theorem groupsOf_persource (pool : List ScoredDoc) (cap : Nat) :
    PerSourceGroups (groupsOf pool cap) := by
  intro g hg x hx y hy
  unfold groupsOf at hg
  obtain ⟨s, _, rfl⟩ := List.mem_map.1 hg
  have hx2 := groupFor_src pool s x (List.mem_of_mem_take hx)
  have hy2 := groupFor_src pool s y (List.mem_of_mem_take hy)
  rw [hx2, hy2]

theorem groupsOf_sep (pool : List ScoredDoc) (cap : Nat) :
    SepGroups (groupsOf pool cap) := by
  unfold SepGroups groupsOf
  rw [List.pairwise_map]
  have hnd := sourceKeys_nodup pool
  apply List.Pairwise.imp_of_mem ?_ hnd
  intro s t _ _ hne x hx y hy
  have hx2 := groupFor_src pool s x (List.mem_of_mem_take hx)
  have hy2 := groupFor_src pool t y (List.mem_of_mem_take hy)
  rw [hx2, hy2]
  exact hne

theorem flatten_groupsOf_subset (pool : List ScoredDoc) (cap : Nat) :
    ∀ x ∈ (groupsOf pool cap).flatten, x ∈ pool := by
  intro x hx
  rw [List.mem_flatten] at hx
  obtain ⟨g, hg, hxg⟩ := hx
  unfold groupsOf at hg
  obtain ⟨s, _, rfl⟩ := List.mem_map.1 hg
  exact groupFor_subset pool s x (List.mem_of_mem_take hxg)

theorem countSrc_flatten_mapTake (s : String) (pool : List ScoredDoc) (cap : Nat)
    (ks : List String) (hnd : ks.Nodup) :
    countSrc s ((ks.map (fun k => (groupFor pool k).take cap)).flatten)
      = if s ∈ ks then min cap (countSrc s pool) else 0 := by
  induction ks with
  | nil => simp [countSrc]
  | cons k ks ih =>
    rw [List.map_cons, List.flatten_cons, countSrc_append]
    rw [List.nodup_cons] at hnd
    rw [ih hnd.2]
    by_cases hks : s = k
    · subst hks
      have hall : ∀ x ∈ (groupFor pool s).take cap, srcOf x = s :=
        fun x hx => groupFor_src pool s x (List.mem_of_mem_take hx)
      rw [countSrc_of_all hall, List.length_take, groupFor_length]
      simp [hnd.1]
    · have hz : countSrc s ((groupFor pool k).take cap) = 0 := by
        apply countSrc_eq_zero
        intro x hx
        rw [groupFor_src pool k x (List.mem_of_mem_take hx)]
        exact fun hc => hks hc.symm
      rw [hz]
      simp [hks]

theorem countSrc_flatten_groupsOf (s : String) (pool : List ScoredDoc) (cap : Nat) :
    countSrc s (groupsOf pool cap).flatten = min cap (countSrc s pool) := by
  unfold groupsOf
  rw [countSrc_flatten_mapTake s pool cap _ (sourceKeys_nodup pool)]
  by_cases h : s ∈ sourceKeys pool
  · simp [h]
  · have : countSrc s pool = 0 := by
      by_contra hc
      have : 1 ≤ countSrc s pool := by omega
      exact h (mem_sourceKeys.2 (countSrc_pos_iff.1 this))
    simp [h, this]

theorem srcs_flatten_groupsOf (pool : List ScoredDoc) {cap : Nat} (hcap : 1 ≤ cap) :
    (srcs (groupsOf pool cap).flatten).toFinset = (srcs pool).toFinset := by
  apply Finset.ext
  intro s
  rw [List.mem_toFinset, List.mem_toFinset, ← countSrc_pos_iff, ← countSrc_pos_iff]
  rw [countSrc_flatten_groupsOf]
  omega

theorem distinct_flatten_groupsOf (pool : List ScoredDoc) {cap : Nat} (hcap : 1 ≤ cap) :
    distinctSrcCount (groupsOf pool cap).flatten = distinctSrcCount pool := by
  unfold distinctSrcCount
  rw [srcs_flatten_groupsOf pool hcap]

/-! ### Facts about the per-source top candidates and the boost -/

theorem srcs_filterMap_tops (pool : List ScoredDoc) (ks : List String)
    (h : ∀ k ∈ ks, groupFor pool k ≠ []) :
    srcs (ks.filterMap (fun s => (groupFor pool s).head?)) = ks := by
  induction ks with
  | nil => rfl
  | cons k ks ih =>
    have hk := h k (List.mem_cons_self _ _)
    cases hg : groupFor pool k with
    | nil => exact absurd hg hk
    | cons d ds =>
      rw [List.filterMap_cons]
      simp only [hg, List.head?_cons]
      have hd : srcOf d = k := groupFor_src pool k d (by rw [hg]; exact List.mem_cons_self _ _)
      simp only [srcs, List.map_cons]
      rw [hd]
      have := ih (fun a ha => h a (List.mem_cons_of_mem _ ha))
      simp only [srcs] at this
      rw [this]

theorem srcs_topsOf (pool : List ScoredDoc) : srcs (topsOf pool) = sourceKeys pool := by
  unfold topsOf
  apply srcs_filterMap_tops
  intro k hk
  exact groupFor_ne_nil (mem_sourceKeys.1 hk)

theorem topsOf_subset (pool : List ScoredDoc) : ∀ x ∈ topsOf pool, x ∈ pool := by
  intro x hx
  unfold topsOf at hx
  obtain ⟨s, _, hh⟩ := List.mem_filterMap.1 hx
  have := List.mem_of_mem_head? hh
  exact groupFor_subset pool s x this

theorem dedup_toFinset (l : List String) : l.dedup.toFinset = l.toFinset := by
  apply Finset.ext
  intro s
  rw [List.mem_toFinset, List.mem_toFinset, List.mem_dedup]

theorem distinct_topsOf (pool : List ScoredDoc) :
    distinctSrcCount (topsOf pool) = distinctSrcCount pool := by
  unfold distinctSrcCount
  rw [srcs_topsOf]
  unfold sourceKeys
  rw [dedup_toFinset]

theorem srcs_take (l : List ScoredDoc) (n : Nat) : srcs (l.take n) = (srcs l).take n := by
  unfold srcs
  rw [List.map_take]

theorem maxSrcCount_of_nodup {l : List ScoredDoc} (hnd : (srcs l).Nodup) (hne : l ≠ []) :
    maxSrcCount l = 1 := by
  obtain ⟨s, hmem, hs⟩ := maxSrcCount_attained hne
  rw [hs]
  have hle : countSrc s l ≤ 1 := by
    rw [countSrc_eq_count]
    exact List.nodup_iff_count_le_one.1 hnd s
  have hge : 1 ≤ countSrc s l := by
    rw [countSrc_eq_count]
    exact List.count_pos_iff.2 (List.mem_toFinset.1 hmem)
  omega

theorem srcs_applyBoost (naive pool : List ScoredDoc) :
    srcs (applyBoost naive pool) = srcs pool := by
  unfold srcs applyBoost
  rw [List.map_map]
  rfl

theorem countSrc_applyBoost (s : String) (naive pool : List ScoredDoc) :
    countSrc s (applyBoost naive pool) = countSrc s pool := by
  rw [countSrc_eq_count, countSrc_eq_count, srcs_applyBoost]

theorem distinct_applyBoost (naive pool : List ScoredDoc) :
    distinctSrcCount (applyBoost naive pool) = distinctSrcCount pool := by
  unfold distinctSrcCount
  rw [srcs_applyBoost]

theorem length_applyBoost (naive pool : List ScoredDoc) :
    (applyBoost naive pool).length = pool.length := by
  unfold applyBoost
  rw [List.length_map]

theorem countSrc_take_le (s : String) (l : List ScoredDoc) (n : Nat) :
    countSrc s (l.take n) ≤ countSrc s l := by
  rw [countSrc_eq_count, countSrc_eq_count, srcs_take]
  exact (List.take_sublist n (srcs l)).count_le s

theorem maxSrcCount_nil : maxSrcCount ([] : List ScoredDoc) = 0 := by
  simp [maxSrcCount, srcs]

theorem srcsFinset_subset {l1 l2 : List ScoredDoc} (h : ∀ x ∈ l1, x ∈ l2) :
    (srcs l1).toFinset ⊆ (srcs l2).toFinset := by
  intro s hs
  rw [List.mem_toFinset] at hs ⊢
  obtain ⟨x, hx, rfl⟩ := mem_srcs_iff.1 hs
  exact mem_srcs_iff.2 ⟨x, h x hx, rfl⟩

theorem rr_groups_max_le (q naive : List ScoredDoc) (N cap : Nat)
    (ha : ∀ s, countSrc s naive ≤ countSrc s q)
    (hb : naive.length = min N q.length) :
    maxSrcCount (rrLoop N (groupsOf q cap) N) ≤ maxSrcCount naive := by
  set gs := groupsOf q cap with hgs
  set O := rrLoop N gs N with hO
  by_contra hcon
  push_neg at hcon
  have hOne : O ≠ [] := by
    intro hnil
    rw [hnil, maxSrcCount_nil] at hcon
    omega
  obtain ⟨sm, hsmF, hsm⟩ := maxSrcCount_attained hOne
  have hOsub : ∀ x ∈ O, x ∈ q := by
    intro x hx
    exact flatten_groupsOf_subset q cap x (rrLoop_subset N gs N x hx)
  set F := (srcs q).toFinset with hF
  have hOF : (srcs O).toFinset ⊆ F := srcsFinset_subset hOsub
  have hcap_bound : maxSrcCount O ≤ cap := by
    rw [hsm]
    calc countSrc sm O ≤ countSrc sm gs.flatten := rrLoop_count_le N gs N sm
      _ = min cap (countSrc sm q) := countSrc_flatten_groupsOf sm q cap
      _ ≤ cap := min_le_left _ _
  have hpoint : ∀ s ∈ F, countSrc s naive ≤ countSrc s O := by
    intro s _
    rcases rrLoop_fair N gs N s sm (groupsOf_persource q cap) (groupsOf_sep q cap)
        with hl | hr
    · have h1 : maxSrcCount O ≤ countSrc s O + 1 := by
        rw [hsm]; exact hl
      have h2 : countSrc s naive ≤ maxSrcCount naive := countSrc_le_max s naive
      omega
    · rw [hr, countSrc_flatten_groupsOf]
      by_cases hcs : countSrc s q ≤ cap
      · rw [min_eq_right hcs]
        exact ha s
      · rw [min_eq_left (by omega)]
        have h2 : countSrc s naive ≤ maxSrcCount naive := countSrc_le_max s naive
        omega
  have hstrict : ∃ s ∈ F, countSrc s naive < countSrc s O := by
    refine ⟨sm, hOF hsmF, ?_⟩
    have h2 : countSrc sm naive ≤ maxSrcCount naive := countSrc_le_max sm naive
    rw [← hsm]
    omega
  have hsum := Finset.sum_lt_sum hpoint hstrict
  have hNF : (srcs naive).toFinset ⊆ F := by
    intro s hs
    rw [List.mem_toFinset] at hs
    have h1 : 1 ≤ countSrc s naive := countSrc_pos_iff.2 hs
    have h2 : 1 ≤ countSrc s q := le_trans h1 (ha s)
    rw [hF, List.mem_toFinset]
    exact countSrc_pos_iff.1 h2
  have hsumN : (F.sum fun s => countSrc s naive) = naive.length :=
    sum_countSrc_eq_length naive hNF
  have hsumO : (F.sum fun s => countSrc s O) = O.length :=
    sum_countSrc_eq_length O hOF
  have hON : O.length ≤ N := rrLoop_length_le N gs N
  have hOq : O.length ≤ q.length := by
    have hpt : ∀ s ∈ F, countSrc s O ≤ countSrc s q := by
      intro s _
      calc countSrc s O ≤ countSrc s gs.flatten := rrLoop_count_le N gs N s
        _ = min cap (countSrc s q) := countSrc_flatten_groupsOf s q cap
        _ ≤ countSrc s q := min_le_right _ _
    have hs1 := Finset.sum_le_sum hpt
    have hsq : (F.sum fun s => countSrc s q) = q.length := by
      apply sum_countSrc_eq_length
      rw [hF]
    omega
  rw [hsumN, hsumO, hb] at hsum
  omega

/-! ### Facts about the Balanced Selector -/

theorem srcsFinset_applyBoost (naive pool : List ScoredDoc) :
    (srcs (applyBoost naive pool)).toFinset = (srcs pool).toFinset := by
  rw [srcs_applyBoost]

theorem balancedSelect_srcs_subset (pool : List ScoredDoc) (n cap m : Nat) :
    (srcs (balancedSelect pool n cap m)).toFinset ⊆ (srcs pool).toFinset := by
  simp only [balancedSelect, rebalance]
  split
  · split
    · refine le_trans (srcsFinset_subset ?_)
        (le_of_eq (srcsFinset_applyBoost (pool.take n) pool))
      intro x hx
      exact topsOf_subset _ x (List.mem_of_mem_take hx)
    · refine le_trans (srcsFinset_subset ?_)
        (le_of_eq (srcsFinset_applyBoost (pool.take n) pool))
      intro x hx
      exact flatten_groupsOf_subset _ cap x (rrLoop_subset n _ n x hx)
  · exact srcsFinset_subset (fun x hx => List.mem_of_mem_take hx)

theorem balancedSelect_length_le (pool : List ScoredDoc) (n cap m : Nat) :
    (balancedSelect pool n cap m).length ≤ n := by
  simp only [balancedSelect, rebalance]
  split
  · split
    · exact le_trans (List.length_take_le _ _) (le_refl n)
    · exact rrLoop_length_le n _ n
  · exact List.length_take_le _ _

theorem balancedSelect_nobias {pool : List ScoredDoc} {n cap m : Nat}
    (h : biasDetected (pool.take n) = false) :
    balancedSelect pool n cap m = pool.take n := by
  unfold balancedSelect
  rw [h]
  simp

theorem balancedSelect_bias {pool : List ScoredDoc} {n cap m : Nat}
    (h : biasDetected (pool.take n) = true) :
    balancedSelect pool n cap m = rebalance pool n cap m := by
  unfold balancedSelect
  rw [h]
  simp

/-! ### Facts about the Retrieval Service search -/

theorem search_results_eq (snap : List Document) (q : Query) (topK minSrc cap : Nat) :
    (search snap q topK minSrc cap).results
      = balancedSelect ((rankAll q snap).take (2 * min topK snap.length))
          (min topK snap.length) (max 1 cap)
          (min (max 1 minSrc) (snapSourceCount snap)) := rfl

theorem search_metrics_eq (snap : List Document) (q : Query) (topK minSrc cap : Nat) :
    (search snap q topK minSrc cap).biasMetrics
      = computeMetrics (search snap q topK minSrc cap).results := rfl

theorem pool_take_eq (snap : List Document) (q : Query) (topK : Nat) :
    ((rankAll q snap).take (2 * min topK snap.length)).take (min topK snap.length)
      = naiveTopK snap q topK := by
  rw [List.take_take]
  unfold naiveTopK
  congr 1
  omega

theorem rankAll_perm (q : Query) (snap : List Document) :
    (rankAll q snap).Perm (scoreAll q snap) :=
  List.perm_insertionSort _ _

theorem rankAll_length (q : Query) (snap : List Document) :
    (rankAll q snap).length = snap.length := by
  rw [(rankAll_perm q snap).length_eq]
  unfold scoreAll
  rw [List.length_map]

theorem srcs_scoreAll (q : Query) (snap : List Document) :
    srcs (scoreAll q snap) = snap.map (fun d => d.sourceFile) := by
  unfold srcs scoreAll
  rw [List.map_map]
  rfl

theorem srcsFinset_rankAll (q : Query) (snap : List Document) :
    (srcs (rankAll q snap)).toFinset = (snap.map (fun d => d.sourceFile)).toFinset := by
  rw [← srcs_scoreAll q snap]
  apply Finset.ext
  intro s
  rw [List.mem_toFinset, List.mem_toFinset]
  constructor
  · intro h
    exact ((rankAll_perm q snap).map srcOf).mem_iff.1 h
  · intro h
    exact ((rankAll_perm q snap).map srcOf).mem_iff.2 h

theorem distinct_rankAll (q : Query) (snap : List Document) :
    distinctSrcCount (rankAll q snap) = snapSourceCount snap := by
  unfold distinctSrcCount snapSourceCount
  rw [srcsFinset_rankAll]

theorem snapSourceCount_le_length (snap : List Document) :
    snapSourceCount snap ≤ snap.length := by
  unfold snapSourceCount
  have := List.toFinset_card_le (snap.map (fun d => d.sourceFile))
  rw [List.length_map] at this
  exact this

theorem rrLoop_nil (fuel n : Nat) : rrLoop fuel [] n = [] := by
  cases fuel with
  | zero => rfl
  | succ fuel => simp [rrLoop, oneRound]

theorem balancedSelect_nil (n cap m : Nat) : balancedSelect [] n cap m = [] := by
  simp only [balancedSelect, rebalance]
  have h1 : applyBoost (List.take n ([] : List ScoredDoc)) [] = [] := rfl
  have h2 : topsOf ([] : List ScoredDoc) = [] := rfl
  split
  · rw [h1]
    have h3 : groupsOf ([] : List ScoredDoc) cap = [] := rfl
    rw [h3, rrLoop_nil]
    split <;> simp [h2]
  · simp

theorem biasDetected_of_distinct_le_one {l : List ScoredDoc}
    (h : distinctSrcCount l ≤ 1) : biasDetected l = true := by
  unfold biasDetected
  rw [diversityScore_of_le_one h]
  have hpos : (0:ℚ) < DIVERSITY_THRESHOLD := by
    unfold DIVERSITY_THRESHOLD
    rw [Rat.mkRat_eq_div]
    norm_num
  simp [hpos]

theorem biasDetected_iff (l : List ScoredDoc) :
    biasDetected l = true
      ↔ (diversityScore l < DIVERSITY_THRESHOLD
          ∨ DOMINANCE_THRESHOLD < dominantSourceShare l) := by
  unfold biasDetected
  simp

theorem distinct_le_one_of_singleton {l : List ScoredDoc} {s : String}
    (h : ∀ x ∈ l, srcOf x = s) : distinctSrcCount l ≤ 1 := by
  unfold distinctSrcCount
  have hsub : (srcs l).toFinset ⊆ {s} := by
    intro t ht
    rw [List.mem_toFinset] at ht
    obtain ⟨x, hx, rfl⟩ := mem_srcs_iff.1 ht
    rw [Finset.mem_singleton]
    exact h x hx
  have := Finset.card_le_card hsub
  simpa using this

theorem srcs_topsOf_take (pool : List ScoredDoc) (n : Nat) :
    srcs ((topsOf pool).take n) = (sourceKeys pool).take n := by
  rw [srcs_take, srcs_topsOf]

theorem nodup_srcs_topsOf_take (pool : List ScoredDoc) (n : Nat) :
    (srcs ((topsOf pool).take n)).Nodup := by
  rw [srcs_topsOf_take]
  exact (sourceKeys_nodup pool).sublist (List.take_sublist n _)

theorem sourceKeys_length (pool : List ScoredDoc) :
    (sourceKeys pool).length = distinctSrcCount pool := by
  unfold distinctSrcCount
  rw [← List.toFinset_card_of_nodup (sourceKeys_nodup pool)]
  unfold sourceKeys
  rw [dedup_toFinset]

theorem distinct_topsOf_take (pool : List ScoredDoc) (n : Nat) :
    distinctSrcCount ((topsOf pool).take n) = min (distinctSrcCount pool) n := by
  unfold distinctSrcCount
  rw [srcs_topsOf_take]
  rw [List.toFinset_card_of_nodup
    ((sourceKeys_nodup pool).sublist (List.take_sublist n _))]
  rw [List.length_take, sourceKeys_length]
  unfold distinctSrcCount
  omega

theorem ne_nil_of_distinct_pos {l : List ScoredDoc} (h : 1 ≤ distinctSrcCount l) :
    l ≠ [] := by
  intro hn
  subst hn
  simp [distinctSrcCount, srcs] at h

theorem diversityScore_eq_one {l : List ScoredDoc} (hnd : (srcs l).Nodup)
    (h2 : 2 ≤ distinctSrcCount l) : diversityScore l = 1 := by
  rw [diversityScore_of_two_le h2]
  rw [maxSrcCount_of_nodup hnd (ne_nil_of_distinct_pos (by omega))]
  rw [Nat.cast_one, div_one]
  rw [min_eq_left]
  have : (2:ℚ) ≤ distinctSrcCount l := by exact_mod_cast h2
  linarith

theorem rebalance_diversity_ge (pool : List ScoredDoc) (n cap m : Nat)
    (hcap : 1 ≤ cap) (hD : 2 ≤ distinctSrcCount (pool.take n)) :
    diversityScore (pool.take n) ≤ diversityScore (rebalance pool n cap m) := by
  simp only [rebalance]
  have hDp : distinctSrcCount (pool.take n) ≤ distinctSrcCount pool :=
    distinctSrcCount_le_of_subset (fun x hx => List.mem_of_mem_take hx)
  have hDn : distinctSrcCount (pool.take n) ≤ n := by
    have h1 := distinctSrcCount_le_length (pool.take n)
    have h2 := List.length_take_le n pool
    omega
  have hflat : distinctSrcCount (groupsOf (applyBoost (pool.take n) pool) cap).flatten
      = distinctSrcCount pool := by
    rw [distinct_flatten_groupsOf _ hcap, distinct_applyBoost]
  have hsel : min (distinctSrcCount pool) n
      ≤ distinctSrcCount (rrLoop n (groupsOf (applyBoost (pool.take n) pool) cap) n) := by
    have := rrLoop_distinct n (groupsOf (applyBoost (pool.take n) pool) cap) n
      (groupsOf_persource _ cap) (groupsOf_sep _ cap) (le_refl n)
    rw [hflat] at this
    exact this
  split
  · -- fallback to per-source top candidates
    have hDF : distinctSrcCount ((topsOf (applyBoost (pool.take n) pool)).take n)
        = min (distinctSrcCount pool) n := by
      rw [distinct_topsOf_take, distinct_applyBoost]
    have h2F : 2 ≤ distinctSrcCount ((topsOf (applyBoost (pool.take n) pool)).take n) := by
      rw [hDF]
      omega
    rw [diversityScore_eq_one (nodup_srcs_topsOf_take _ n) h2F]
    exact diversityScore_le_one _
  · -- round-robin result
    have hM : maxSrcCount (rrLoop n (groupsOf (applyBoost (pool.take n) pool) cap) n)
        ≤ maxSrcCount (pool.take n) := by
      apply rr_groups_max_le
      · intro s
        rw [countSrc_applyBoost]
        exact countSrc_take_le s pool n
      · rw [List.length_take, length_applyBoost]
    have hDb : distinctSrcCount (pool.take n)
        ≤ distinctSrcCount (rrLoop n (groupsOf (applyBoost (pool.take n) pool) cap) n) := by
      omega
    have hMb : 1 ≤ maxSrcCount (rrLoop n (groupsOf (applyBoost (pool.take n) pool) cap) n) := by
      apply one_le_maxSrcCount
      apply ne_nil_of_distinct_pos
      omega
    exact diversityScore_mono hDb hM hD hMb

/-! ### Concrete evaluations used by witnesses and counterexamples -/

theorem rawScore_x (s : String) : rawScore defaultWeights qx (mkDoc s "x" none) = 1 := by
  have h1 : directMatch qx (mkDoc s "x" none) = true := rfl
  have h2 : tokenMatchCount qx (mkDoc s "x" none) = 1 := rfl
  have h3 : keywordMatchCount qx (mkDoc s "x" none) = 0 := rfl
  have h4 : platformMatch qx (mkDoc s "x" none) = false := rfl
  unfold rawScore totalScore
  rw [h1, h2, h3, h4]
  rw [if_pos rfl, if_neg (by simp)]
  rw [min_def]
  norm_num [defaultWeights]

theorem rawScore_y (s : String) : rawScore defaultWeights qx (mkDoc s "y" none) = 0 := by
  have h1 : directMatch qx (mkDoc s "y" none) = false := rfl
  have h2 : tokenMatchCount qx (mkDoc s "y" none) = 0 := rfl
  have h3 : keywordMatchCount qx (mkDoc s "y" none) = 0 := rfl
  have h4 : platformMatch qx (mkDoc s "y" none) = false := rfl
  unfold rawScore totalScore
  rw [h1, h2, h3, h4]
  rw [if_neg (by simp), if_neg (by simp)]
  rw [min_def]
  norm_num [defaultWeights]

theorem rank_minSnap_eval : rankAll qx minSnap
    = [⟨mkDoc "a" "x" none, 1⟩, ⟨mkDoc "a" "x" none, 1⟩, ⟨mkDoc "b" "x" none, 1⟩,
       ⟨mkDoc "b" "x" none, 1⟩, ⟨mkDoc "c" "y" none, 0⟩] := by
  unfold rankAll scoreAll minSnap
  simp only [List.map_cons, List.map_nil, rawScore_x, rawScore_y]
  norm_num [List.insertionSort, List.orderedInsert, scoreOrd]

theorem rank_twoSnap_eval : rankAll qx twoSnap
    = [⟨mkDoc "a" "x" none, 1⟩, ⟨mkDoc "b" "x" none, 1⟩] := by
  unfold rankAll scoreAll twoSnap
  simp only [List.map_cons, List.map_nil, rawScore_x]
  norm_num [List.insertionSort, List.orderedInsert, scoreOrd]

theorem naive_twoSnap_distinct : 2 ≤ distinctSrcCount (naiveTopK twoSnap qx 2) := by
  rw [naiveTopK, rank_twoSnap_eval]
  decide

theorem totalScore_capDoc : totalScore defaultWeights qx capDoc = 11/10 := by
  have h1 : directMatch qx capDoc = true := rfl
  have h2 : tokenMatchCount qx capDoc = 1 := rfl
  have h3 : keywordMatchCount qx capDoc = 0 := rfl
  have h4 : platformMatch qx capDoc = false := rfl
  unfold totalScore
  rw [h1, h2, h3, h4]
  rw [if_pos rfl, if_neg (by simp)]
  norm_num [defaultWeights]

/-! ### The specification claims -/

/-- C1: similarity scoring reference definition — for every (query, document)
pair the relevance score equals the sum of 0.8 for a verbatim lowercased-query
substring match, 0.3 per query token present in the normalized content, 0.2
per keyword in the keyword intersection, and 0.5 for a platform-hint match,
capped as min(sum, 1.0), hence always in [0, 1]. -/
theorem claim_C1_similarity_score_reference (q : Query) (d : Document) :
    rawScore defaultWeights q d
        = min ((if directMatch q d then (4:ℚ)/5 else 0)
            + (3:ℚ)/10 * tokenMatchCount q d
            + (1:ℚ)/5 * keywordMatchCount q d
            + (if platformMatch q d then (1:ℚ)/2 else 0)) 1
      ∧ 0 ≤ rawScore defaultWeights q d ∧ rawScore defaultWeights q d ≤ 1 :=
  ⟨rfl, rawScore_nonneg q d, rawScore_le_one q d⟩

/-- C7: score monotonicity — prepending a token to the query's tokens,
prepending a keyword to its keywords, or turning a platform hint from absent
to one matching the document's platform tag, never decreases the document's
similarity score. -/
theorem claim_C7_score_monotonicity (q : Query) (d : Document) (t k : String) :
    rawScore defaultWeights q d
        ≤ rawScore defaultWeights { q with tokens := t :: q.tokens } d
    ∧ rawScore defaultWeights q d
        ≤ rawScore defaultWeights { q with keywords := k :: q.keywords } d
    ∧ rawScore defaultWeights { q with platformHint := none } d
        ≤ rawScore defaultWeights { q with platformHint := d.platformTag } d := by
  refine ⟨?_, ?_, ?_⟩
  · exact min_le_min (totalScore_token_mono q d t) (le_refl 1)
  · exact min_le_min (totalScore_keyword_mono q d k) (le_refl 1)
  · exact min_le_min (totalScore_platform_mono q d) (le_refl 1)

/-- C10: boost absorption at the score cap — when the unweighted sum of match
contributions reaches 1.0, the bias-adjusted final score is exactly 1.0 for
every source weight in [1, 2], so source-weight boosting cannot separate two
documents that both reach the cap. -/
theorem claim_C10_boost_absorption (q : Query) (d : Document) (sw : ℚ)
    (h1 : 1 ≤ sw) (h2 : sw ≤ 2) (hcap : 1 ≤ totalScore defaultWeights q d) :
    adjustedScore defaultWeights sw q d = 1
    ∧ ∀ d2 sw2, 1 ≤ sw2 → sw2 ≤ 2 → 1 ≤ totalScore defaultWeights q d2 →
        adjustedScore defaultWeights sw q d = adjustedScore defaultWeights sw2 q d2 := by
  have key : ∀ d3 sw3, 1 ≤ sw3 → 1 ≤ totalScore defaultWeights q d3 →
      adjustedScore defaultWeights sw3 q d3 = 1 := by
    intro d3 sw3 hs3 ht3
    unfold adjustedScore
    rw [min_eq_right]
    calc (1:ℚ) = 1 * 1 := by norm_num
      _ ≤ totalScore defaultWeights q d3 * sw3 :=
          mul_le_mul ht3 hs3 zero_le_one (le_trans zero_le_one ht3)
  refine ⟨key d sw h1 hcap, ?_⟩
  intro d2 sw2 h1b _ hcb
  rw [key d sw h1 hcap, key d2 sw2 h1b hcb]

/-- C10 witness: a document whose contributions sum to 1.1 has bias-adjusted
score exactly 1 under source weight 1.5. -/
theorem claim_C10_witness :
    (1:ℚ) ≤ 3/2 ∧ (3:ℚ)/2 ≤ 2 ∧ 1 ≤ totalScore defaultWeights qx capDoc
    ∧ adjustedScore defaultWeights (3/2) qx capDoc = 1 := by
  have hc : (1:ℚ) ≤ totalScore defaultWeights qx capDoc := by
    rw [totalScore_capDoc]
    norm_num
  exact ⟨by norm_num, by norm_num, hc,
    (claim_C10_boost_absorption qx capDoc (3/2) (by norm_num) (by norm_num) hc).1⟩

/-- C2: diversity score definition — on every non-empty candidate set the
diversity score is the distinct-source count divided by the largest
single-source count, clamped to [0, 1], except that exactly one distinct
source yields 0 by explicit rule rather than the value of the division. -/
theorem claim_C2_diversity_score_definition (l : List ScoredDoc) (h : l ≠ []) :
    (distinctSrcCount l = 1 → diversityScore l = 0)
    ∧ (2 ≤ distinctSrcCount l →
        diversityScore l = min 1 ((distinctSrcCount l : ℚ) / (maxSrcCount l : ℚ)))
    ∧ 0 ≤ diversityScore l ∧ diversityScore l ≤ 1 := by
  refine ⟨?_, ?_, diversityScore_nonneg l, diversityScore_le_one l⟩
  · intro h1
    exact diversityScore_of_le_one (by omega)
  · intro h2
    exact diversityScore_of_two_le h2

/-- C2 witness: the definition evaluated on a concrete three-element,
two-source candidate set. -/
theorem claim_C2_witness :
    twoList ≠ []
    ∧ ((distinctSrcCount twoList = 1 → diversityScore twoList = 0)
      ∧ (2 ≤ distinctSrcCount twoList →
          diversityScore twoList
            = min 1 ((distinctSrcCount twoList : ℚ) / (maxSrcCount twoList : ℚ)))
      ∧ 0 ≤ diversityScore twoList ∧ diversityScore twoList ≤ 1) :=
  ⟨by decide, claim_C2_diversity_score_definition twoList (by decide)⟩

/-- C9: full scoring without relevance filtering — the scorer's ranking is a
permutation of the whole snapshot scored (no document is dropped for a low
score), sorted descending by score, with length equal to the snapshot's. -/
theorem claim_C9_full_scoring_no_filtering (q : Query) (snap : List Document) :
    (rankAll q snap).Perm (snap.map (fun d => ⟨d, rawScore defaultWeights q d⟩))
    ∧ List.Sorted scoreOrd (rankAll q snap)
    ∧ (rankAll q snap).length = snap.length
    ∧ (∀ a b : ScoredDoc, scoreOrd a b ↔ b.score ≤ a.score) :=
  ⟨rankAll_perm q snap, List.sorted_insertionSort _ _, rankAll_length q snap,
    fun _ _ => Iff.rfl⟩

/-- C6: rebalance-iff-bias — the Balanced Selector returns the naive top-N
unchanged exactly when the Bias Analyzer reports no bias on it, rebalances
exactly when it does, and bias is detected iff the diversity score is below
the 0.5 threshold or the dominant source share exceeds the 0.7 threshold. -/
theorem claim_C6_rebalance_iff_bias (pool : List ScoredDoc) (n cap m : Nat) :
    (biasDetected (pool.take n) = false → balancedSelect pool n cap m = pool.take n)
    ∧ (biasDetected (pool.take n) = true → balancedSelect pool n cap m = rebalance pool n cap m)
    ∧ (biasDetected (pool.take n) = true
        ↔ diversityScore (pool.take n) < DIVERSITY_THRESHOLD
          ∨ DOMINANCE_THRESHOLD < dominantSourceShare (pool.take n))
    ∧ DIVERSITY_THRESHOLD = 1/2 ∧ DOMINANCE_THRESHOLD = 7/10 := by
  refine ⟨fun h => balancedSelect_nobias h, fun h => balancedSelect_bias h,
    biasDetected_iff _, ?_, ?_⟩
  · unfold DIVERSITY_THRESHOLD
    rw [Rat.mkRat_eq_div]
    norm_num
  · unfold DOMINANCE_THRESHOLD
    rw [Rat.mkRat_eq_div]
    norm_num

/-- C6 witness: on a concrete unbiased two-source pool the selector returns
the naive top-2 unchanged. -/
theorem claim_C6_witness :
    biasDetected (evenPool.take 2) = false
    ∧ balancedSelect evenPool 2 3 2 = evenPool.take 2 :=
  ⟨by decide, (claim_C6_rebalance_iff_bias evenPool 2 3 2).1 (by decide)⟩

/-- C4 counterexample: a six-candidate pool with four documents from source a
and two from source b triggers no bias (diversity 0.5, dominance 2/3), so the
selector returns the naive top-6 unchanged and source a contributes 4 > 3
documents, violating the cap as claimed. -/
theorem claim_C4_counterexample :
    ¬ countSrc "a" (balancedSelect capPool 6 3 2) ≤ 3 := by
  decide

/-- C4 amended: whenever the Bias Analyzer does detect bias on the naive
top-N (so the rebalancing path actually runs) and maxPerSource is at least 1,
no source contributes more than maxPerSource documents to the selector's
output; the unchanged no-bias passthrough is exempt. -/
theorem claim_C4_amended_cap_when_rebalancing (pool : List ScoredDoc)
    (n cap m : Nat) (s : String) (hcap : 1 ≤ cap)
    (hb : biasDetected (pool.take n) = true) :
    countSrc s (balancedSelect pool n cap m) ≤ cap := by
  rw [balancedSelect_bias hb]
  simp only [rebalance]
  split
  · have hnd := nodup_srcs_topsOf_take (applyBoost (pool.take n) pool) n
    have hone : countSrc s ((topsOf (applyBoost (pool.take n) pool)).take n) ≤ 1 := by
      rw [countSrc_eq_count]
      exact List.nodup_iff_count_le_one.1 hnd s
    omega
  · calc countSrc s (rrLoop n (groupsOf (applyBoost (pool.take n) pool) cap) n)
        ≤ countSrc s (groupsOf (applyBoost (pool.take n) pool) cap).flatten :=
          rrLoop_count_le _ _ _ _
      _ = min cap (countSrc s (applyBoost (pool.take n) pool)) :=
          countSrc_flatten_groupsOf _ _ _
      _ ≤ cap := min_le_left _ _

/-- C4 witness: on a biased all-a prefix the rebalanced output respects the
cap of 3 for source a. -/
theorem claim_C4_witness :
    1 ≤ 3 ∧ biasDetected (capPool.take 4) = true
    ∧ countSrc "a" (balancedSelect capPool 4 3 2) ≤ 3 :=
  ⟨by decide, by decide,
    claim_C4_amended_cap_when_rebalancing capPool 4 3 2 "a" (by decide) (by decide)⟩

/-- C3: diversity non-regression — for every query whose naive top-K spans at
least two distinct sources, the diversity score of the balanced result set
returned by search is at least the diversity score of the naive top-K. -/
theorem claim_C3_diversity_non_regression (snap : List Document) (q : Query)
    (topK minSrc cap : Nat)
    (h2 : 2 ≤ distinctSrcCount (naiveTopK snap q topK)) :
    diversityScore (naiveTopK snap q topK)
      ≤ diversityScore (search snap q topK minSrc cap).results := by
  rw [search_results_eq]
  rw [← pool_take_eq snap q topK] at h2 ⊢
  cases hbias : biasDetected (((rankAll q snap).take (2 * min topK snap.length)).take
      (min topK snap.length)) with
  | false => rw [balancedSelect_nobias hbias]
  | true =>
    rw [balancedSelect_bias hbias]
    exact rebalance_diversity_ge _ _ _ _ (le_max_left 1 cap) h2

/-- C3 witness: on a concrete two-source snapshot where the naive top-2 spans
both sources, the balanced result's diversity is no smaller. -/
theorem claim_C3_witness :
    2 ≤ distinctSrcCount (naiveTopK twoSnap qx 2)
    ∧ diversityScore (naiveTopK twoSnap qx 2)
        ≤ diversityScore (search twoSnap qx 2 2 3).results :=
  ⟨naive_twoSnap_distinct,
    claim_C3_diversity_non_regression twoSnap qx 2 2 3 naive_twoSnap_distinct⟩

/-- C5 counterexample: a snapshot with three distinct sources (a, a, b, b
matching the query, c not matching), topK = 4 ≥ minSources = 3: the naive
top-4 is two a-documents and two b-documents, no bias is detected
(diversity 1, dominance 0.5), so the result is returned unchanged with only
2 < 3 distinct sources — the claimed guarantee fails. -/
theorem claim_C5_counterexample :
    ¬ 3 ≤ distinctSrcCount (search minSnap qx 4 3 3).results := by
  rw [search_results_eq, rank_minSnap_eval]
  decide

/-- C5 amended: with minSources at most 2 (its default), and the oversampled
candidate pool covering the snapshot (snapshot size at most 2·topK), a
snapshot with at least minSources distinct sources and topK ≥ minSources
yields a balanced result spanning at least minSources distinct sources; for
minSources above 2 the no-bias passthrough can return fewer sources. -/
theorem claim_C5_amended_min_sources (snap : List Document) (q : Query)
    (topK minSrc cap : Nat)
    (h1 : minSrc ≤ snapSourceCount snap) (h2 : minSrc ≤ topK) (h3 : minSrc ≤ 2)
    (h4 : snap.length ≤ 2 * topK) :
    minSrc ≤ distinctSrcCount (search snap q topK minSrc cap).results := by
  rcases Nat.eq_zero_or_pos minSrc with hz | hpos
  · omega
  rw [search_results_eq]
  have hsl : snapSourceCount snap ≤ snap.length := snapSourceCount_le_length snap
  have hpool : (rankAll q snap).take (2 * min topK snap.length) = rankAll q snap := by
    apply List.take_of_length_le
    rw [rankAll_length]
    omega
  rw [hpool]
  have hsEff : min (max 1 minSrc) (snapSourceCount snap) = minSrc := by omega
  rw [hsEff]
  have hG : distinctSrcCount (rankAll q snap) = snapSourceCount snap :=
    distinct_rankAll q snap
  cases hbias : biasDetected ((rankAll q snap).take (min topK snap.length)) with
  | false =>
    rw [balancedSelect_nobias hbias]
    have hne : (rankAll q snap).take (min topK snap.length) ≠ [] := by
      intro hnil
      have hlen := congrArg List.length hnil
      rw [List.length_take, rankAll_length, List.length_nil] at hlen
      omega
    have hd1 : 1 ≤ distinctSrcCount ((rankAll q snap).take (min topK snap.length)) :=
      distinctSrcCount_pos hne
    by_cases hm2 : minSrc ≤ 1
    · omega
    · by_contra hcon
      push_neg at hcon
      have hle1 : distinctSrcCount ((rankAll q snap).take (min topK snap.length)) ≤ 1 := by
        omega
      have := biasDetected_of_distinct_le_one hle1
      rw [hbias] at this
      exact Bool.false_ne_true this
  | true =>
    rw [balancedSelect_bias hbias]
    simp only [rebalance]
    have hflat : distinctSrcCount (groupsOf
        (applyBoost ((rankAll q snap).take (min topK snap.length)) (rankAll q snap))
        (max 1 cap)).flatten = snapSourceCount snap := by
      rw [distinct_flatten_groupsOf _ (le_max_left 1 cap), distinct_applyBoost, hG]
    have hsel : minSrc ≤ distinctSrcCount (rrLoop (min topK snap.length)
        (groupsOf (applyBoost ((rankAll q snap).take (min topK snap.length))
          (rankAll q snap)) (max 1 cap)) (min topK snap.length)) := by
      have hrr := rrLoop_distinct (min topK snap.length)
        (groupsOf (applyBoost ((rankAll q snap).take (min topK snap.length))
          (rankAll q snap)) (max 1 cap)) (min topK snap.length)
        (groupsOf_persource _ _) (groupsOf_sep _ _) (le_refl _)
      rw [hflat] at hrr
      omega
    rw [if_neg (by omega)]
    exact hsel

/-- C5 witness: on the concrete two-source snapshot with default
minSources = 2, the result spans at least 2 sources. -/
theorem claim_C5_witness :
    2 ≤ snapSourceCount twoSnap ∧ 2 ≤ distinctSrcCount (search twoSnap qx 2 2 3).results :=
  ⟨by decide,
    claim_C5_amended_min_sources twoSnap qx 2 2 3 (by decide) (by decide)
      (by decide) (by decide)⟩

/-- C8: graceful degradation — search is total: on the empty snapshot it
returns an empty result set with diversity score 0 rather than an error, the
result size never exceeds topK (excessive topK is effectively clamped), and
on a single-source snapshot a search with minSources = 2 returns a normal
result whose diversity score is 0 (minSources is clamped, not rejected). -/
theorem claim_C8_graceful_degradation :
    (∀ q topK minSrc cap,
        (search ([] : List Document) q topK minSrc cap).results = []
        ∧ (search ([] : List Document) q topK minSrc cap).biasMetrics.diversityScore = 0)
    ∧ (∀ snap q topK minSrc cap,
        (search snap q topK minSrc cap).results.length ≤ topK)
    ∧ (∀ s snap q topK cap, (∀ d ∈ snap, d.sourceFile = s) →
        (search snap q topK 2 cap).biasMetrics.diversityScore = 0) := by
  refine ⟨?_, ?_, ?_⟩
  · intro q topK minSrc cap
    have hres : (search ([] : List Document) q topK minSrc cap).results = [] := by
      rw [search_results_eq]
      simp only [List.length_nil, Nat.min_zero]
      have hr : rankAll q [] = [] := rfl
      rw [hr]
      simp only [List.take_nil]
      exact balancedSelect_nil _ _ _
    refine ⟨hres, ?_⟩
    rw [search_metrics_eq, hres]
    show diversityScore [] = 0
    exact diversityScore_of_le_one (by simp [distinctSrcCount, srcs])
  · intro snap q topK minSrc cap
    rw [search_results_eq]
    have hb := balancedSelect_length_le
      ((rankAll q snap).take (2 * min topK snap.length)) (min topK snap.length)
      (max 1 cap) (min (max 1 minSrc) (snapSourceCount snap))
    omega
  · intro s snap q topK cap h
    rw [search_metrics_eq]
    show diversityScore (search snap q topK 2 cap).results = 0
    apply diversityScore_of_le_one
    have hpool1 : ∀ x ∈ (rankAll q snap).take (2 * min topK snap.length), srcOf x = s := by
      intro x hx
      have hx2 : x ∈ rankAll q snap := List.mem_of_mem_take hx
      have hx3 : x ∈ scoreAll q snap := (rankAll_perm q snap).subset hx2
      unfold scoreAll at hx3
      obtain ⟨d, hd, rfl⟩ := List.mem_map.1 hx3
      exact h d hd
    have hp1 : distinctSrcCount ((rankAll q snap).take (2 * min topK snap.length)) ≤ 1 :=
      distinct_le_one_of_singleton hpool1
    rw [search_results_eq]
    have hsub := balancedSelect_srcs_subset
      ((rankAll q snap).take (2 * min topK snap.length)) (min topK snap.length)
      (max 1 cap) (min (max 1 2) (snapSourceCount snap))
    have hcard := Finset.card_le_card hsub
    unfold distinctSrcCount at hp1 ⊢
    omega

/-- C8 witness: the empty-snapshot branch instantiated, and the
single-source branch instantiated on a concrete two-document
single-source snapshot searched with minSources = 2. -/
theorem claim_C8_witness :
    (search ([] : List Document) qx 5 2 3).results = []
    ∧ (∀ d ∈ oneSnap, d.sourceFile = "a")
    ∧ (search oneSnap qx 5 2 3).biasMetrics.diversityScore = 0 :=
  ⟨(claim_C8_graceful_degradation.1 qx 5 2 3).1, by decide,
    claim_C8_graceful_degradation.2.2 "a" oneSnap qx 5 3 (by decide)⟩
